import Mathlib

/-!
Verification of the gluezilla-templater hammering core.

Shallow embedding of the DRAM address translator (`src/dram_address.cpp`),
the physical page finder (`src/phys_page_finder.cpp`), the bit flipper
(`src/bit_flipper.cpp`), the non-contiguous flip finder
(`noncontiguous_flip_finder.cpp`), the configuration normalization
(`src/config.cpp`) and the hammer pattern expansion, together with proofs
about them.  Machine integers (`uint64_t`) are embedded as `Nat`; wraparound
and C `int` width effects are modelled explicitly where they can occur.
-/

namespace Gluezilla

/-! ## Bit helpers (include/operators.h) -/

/-- The modulus of `uint64_t` arithmetic. -/
def U64 : Nat := 2 ^ 64

/-- Fuel-bounded population count: adds the low bit and recurses on the
value shifted right by one, `fuel` times. -/
def pcGo : Nat → Nat → Nat
  | 0, _ => 0
  | fuel + 1, v => v % 2 + pcGo fuel (v / 2)

/-- `count_one_bits` from operators.h (`__builtin_popcountll`), counting the
64 bits of a `uint64_t` value. -/
def count_one_bits (v : Nat) : Nat := pcGo 64 v

/-- Fuel-bounded count of trailing zero bits. -/
def ctzGo : Nat → Nat → Nat
  | 0, _ => 0
  | fuel + 1, v => if v % 2 = 1 then 0 else 1 + ctzGo fuel (v / 2)

/-- `count_trailing_zero_bits` from operators.h (`__builtin_ctzll`); the C
builtin is undefined for input 0 (this model then yields 64). -/
def count_trailing_zero_bits (v : Nat) : Nat := ctzGo 64 v

/-- `xor_bits` from operators.h: the parity of `value & bitmask`
(`__builtin_parityll`). -/
def xor_bits (value bitmask : Nat) : Nat := count_one_bits (value &&& bitmask) % 2

/-- Bitwise NOT of a `uint64_t` value (`~v` in the source). -/
def u64_not (v : Nat) : Nat := (U64 - 1) ^^^ (v % U64)

/-- The C++ expression `1 << n` has type `int` (32 bits) and is converted to
`uint64_t` when the source XORs it into an address.  For `n < 31` its value is
`2 ^ n`; for `n = 31` the C++20 result is `INT_MIN`, which converts to
`2 ^ 64 - 2 ^ 31`; for `n ≥ 32` the shift is undefined behaviour, modelled
here as 0 and never reached under the hypotheses used below. -/
def cpp_one_shl (n : Nat) : Nat :=
  if n < 31 then 2 ^ n else if n = 31 then U64 - 2 ^ 31 else 0

/-- The C++ expression `(1 << n) - 1` (type `int`) used by
`pop_least_significant_bits`; well defined for `n ≤ 30`, undefined behaviour
otherwise (modelled as 0 and never reached under the hypotheses below). -/
def cpp_low_mask (n : Nat) : Nat := if n ≤ 30 then 2 ^ n - 1 else 0

/-! ## DRAM address model (include/dram_address.h, src/dram_address.cpp)

The C++ code reads the layout from the global `config.dram_layout`; the
embedding passes the layout explicitly. -/

/-- `DRAMLayout` (include/dram_layout.h): bank XOR functions and row/column
bit masks. -/
structure DRAMLayout where
  h_fns : List Nat
  row_masks : List Nat
  col_masks : List Nat

/-- `DRAMAddr` (include/dram_address.h). -/
structure DRAMAddr where
  bank : Nat
  row : Nat
  col : Nat
deriving DecidableEq, Repr

/-- The mask-extraction loop shared by `DRAMAddr::get_dram_row` and
`DRAMAddr::get_dram_col`: accumulates `(value, offset)` over the mask list. -/
def extract_masks (masks : List Nat) (p : Nat) : Nat × Nat :=
  masks.foldl
    (fun acc mask =>
      (acc.1 + (((p &&& mask) >>> count_trailing_zero_bits mask) <<< acc.2),
       acc.2 + count_one_bits mask))
    (0, 0)

/-- `DRAMAddr::get_dram_row` (src/dram_address.cpp). -/
def get_dram_row (L : DRAMLayout) (p : Nat) : Nat :=
  if L.row_masks.length = 1 then
    (p &&& L.row_masks.head!) >>> count_trailing_zero_bits L.row_masks.head!
  else (extract_masks L.row_masks p).1

/-- `DRAMAddr::get_dram_col` (src/dram_address.cpp). -/
def get_dram_col (L : DRAMLayout) (p : Nat) : Nat :=
  if L.col_masks.length = 1 then
    (p &&& L.col_masks.head!) >>> count_trailing_zero_bits L.col_masks.head!
  else (extract_masks L.col_masks p).1

/-- The bank loop of `DRAMAddr::DRAMAddr(const physaddr_t &)`:
`bank |= xor_bits(p_addr, h_fns[i]) << i`. -/
def get_dram_bank (L : DRAMLayout) (p : Nat) : Nat :=
  L.h_fns.enum.foldl (fun bank x => bank ||| (xor_bits p x.2 <<< x.1)) 0

/-- `DRAMAddr::DRAMAddr(const physaddr_t &)` (src/dram_address.cpp). -/
def DRAMAddr.ofPhys (L : DRAMLayout) (p : Nat) : DRAMAddr :=
  { bank := get_dram_bank L p, row := get_dram_row L p, col := get_dram_col L p }

/-- `pop_least_significant_bits` (src/dram_address.cpp): returns the popped
low `n` bits and the shifted remainder. -/
def pop_least_significant_bits (val : Nat) (n : Nat) : Nat × Nat :=
  (val &&& cpp_low_mask n, val >>> n)

/-- The row/column placement loop of `DRAMAddr::phys`: for each mask, pops
`count_one_bits mask` bits from the running value and ORs them into the
address at the mask's offset. -/
def place_masks (masks : List Nat) (acc0 v0 : Nat) : Nat :=
  (masks.foldl
    (fun st mask =>
      ((st.1 |||
          ((pop_least_significant_bits st.2 (count_one_bits mask)).1 <<<
            count_trailing_zero_bits mask)),
       (pop_least_significant_bits st.2 (count_one_bits mask)).2))
    (acc0, v0)).1

/-- The h-function correction loop of `DRAMAddr::phys`: whenever the parity
of `p_addr & h_fns[i]` disagrees with bank bit `i`, the lowest bit of
`h_fns[i]` outside every row and column mask is toggled.  `~accumulate(...)`
in the source sums the masks with `+` before complementing. -/
def apply_h_fns (L : DRAMLayout) (bank : Nat) (p0 : Nat) : Nat :=
  let not_row_mask := u64_not (L.row_masks.foldl (fun a b => a + b) 0)
  let not_col_mask := u64_not (L.col_masks.foldl (fun a b => a + b) 0)
  L.h_fns.enum.foldl
    (fun p_addr x =>
      if xor_bits p_addr x.2 = (bank >>> x.1) &&& 1 then p_addr
      else
        p_addr ^^^
          cpp_one_shl (count_trailing_zero_bits (x.2 &&& not_col_mask &&& not_row_mask)))
    p0

/-- `DRAMAddr::phys` (src/dram_address.cpp).  The `DEBUG_REVERSE_FN` block of
the source only logs a mapping error and does not change the returned
value. -/
def DRAMAddr.physOf (L : DRAMLayout) (a : DRAMAddr) : Nat :=
  let row_part :=
    if L.row_masks.length = 1 then
      a.row <<< count_trailing_zero_bits L.row_masks.head!
    else place_masks L.row_masks 0 a.row
  let rc_part :=
    if L.col_masks.length = 1 then
      row_part ||| (a.col <<< count_trailing_zero_bits L.col_masks.head!)
    else place_masks L.col_masks row_part a.col
  apply_h_fns L a.bank rc_part

/-- The default `DRAMLayout` of `include/config.h`. -/
def defaultLayout : DRAMLayout :=
  { h_fns := [0x2040, 0x44000, 0x88000, 0x110000, 0x220000],
    row_masks := [0xffffc0000],
    col_masks := [0x1fff] }


/-! ## Contiguous masks

`Config::verify_values` (src/config.cpp, `verify_masks`) enforces that every
row/column mask has contiguous 1-bits. -/

/-- A contiguous bit mask: `w` one-bits starting at offset `o`. -/
def contigMask (o w : Nat) : Nat := (2 ^ w - 1) <<< o

/-- Well-formedness of a row/column mask as the source requires it: a nonzero
contiguous field (contiguity is enforced by `Config::verify_values`) that fits
in a `uint64_t`; the width bound `w ≤ 30` keeps the C `int` expression
`(1 << n) - 1` of `pop_least_significant_bits` well defined. -/
def WellMask (m : Nat) : Prop :=
  ∃ o w, 0 < w ∧ w ≤ 30 ∧ o + w ≤ 64 ∧ m = contigMask o w

/-- Recursive form of the extraction loop: the fields of `p` under the masks,
packed low-to-high in list order. -/
def packFields (p : Nat) : List Nat → Nat
  | [] => 0
  | m :: ms =>
    ((p &&& m) >>> count_trailing_zero_bits m) +
      (packFields p ms <<< count_one_bits m)

/-- Recursive form of the placement loop of `DRAMAddr::phys`. -/
def placeFields : Nat → List Nat → Nat
  | _, [] => 0
  | v, m :: ms =>
    ((v &&& cpp_low_mask (count_one_bits m)) <<< count_trailing_zero_bits m) |||
      placeFields (v >>> count_one_bits m) ms

/-- OR of all masks in a list. -/
def unionFields : List Nat → Nat
  | [] => 0
  | m :: ms => m ||| unionFields ms

/-! ## Physical page finder (include/phys_page_finder.h, src/phys_page_finder.cpp) -/

/-- `page_size` from include/config.h (`4_KiB`). -/
def page_size : Nat := 4096

/-- `PhysPageFinder`: the base virtual address `mem` of the mapped region and
the pagemap, an ordered map from page frame number to page offset relative to
`mem`.  The map is embedded as an association list. -/
structure PhysPageFinder where
  mem : Nat
  pagemap : List (Nat × Nat)

/-- `PhysPageFinder::find_page` (src/phys_page_finder.cpp): looks up the frame
number `phys_addr / page_size`; on success the out-parameter receives
`mem + offset * page_size`.  Modelled with an `Option` result standing for the
`bool` return plus the out-parameter. -/
def PhysPageFinder.find_page (f : PhysPageFinder) (phys_addr : Nat) : Option Nat :=
  match f.pagemap.lookup (phys_addr / page_size) with
  | none => none
  | some off => some (f.mem + off * page_size)

/-! ## Bit flipper (include/bit_flipper.h, src/bit_flipper.cpp) -/

/-- One emitted flip event, as passed to `log_info_flip` /
`db->insert_bitflip(victim_phys, victim_bit, flips_to)` in
`BitFlipper::hammer_and_check`. -/
structure FlipEvent where
  victim_phys : Nat
  victim_bit : Nat
  flips_to : Nat
deriving DecidableEq, Repr

/-- The absolute bit position inside the scanned 64-bit word that an event
denotes, recovered from the byte-precise `victim_phys` and the bit-in-byte
index. -/
def FlipEvent.bit_in_word (e : FlipEvent) (phys_word : Nat) : Nat :=
  (e.victim_phys - phys_word) * 8 + e.victim_bit

/-- The per-word flip scan of `BitFlipper::hammer_and_check`
(src/bit_flipper.cpp, check loop): a word equal to `victim_init` is skipped;
otherwise each of the 64 bit positions whose value differs from the
initialization emits one event carrying the byte-precise physical address,
the bit index within that byte, and the observed bit value. -/
def check_word (victim_init val phys_word : Nat) : List FlipEvent :=
  if val = victim_init then []
  else
    (List.range 64).filterMap (fun bit =>
      if (victim_init >>> bit) &&& 1 = (val >>> bit) &&& 1 then none
      else
        some { victim_phys := phys_word + bit / 8,
               victim_bit := bit % 8,
               flips_to := (val >>> bit) &&& 1 })

/-- The whole-row scan: the victim row read as a list of 64-bit words, each
word at byte offset `8 * i` (`flip_offset_bytes`) from the row start. -/
def scan_victim_row (victim_init : Nat) (words : List Nat) (victim_phys_row : Nat) :
    List FlipEvent :=
  List.flatten (words.enum.map (fun x => check_word victim_init x.2 (victim_phys_row + 8 * x.1)))

/-- `HammerAddrs` (include/bit_flipper.h): physical addresses of the first
byte of each aggressor and victim row. -/
structure HammerAddrs where
  aggs : List Nat
  victims : List Nat

/-- One pass of the `found &= finder.find_page(phys[i], virt[i])` loop of
`BitFlipper::find_pages`: each pair carries the physical row address and the
previous value of the virtual-address entry; `find_page` writes the entry only
when the page is present, and the conjunction of all results is returned
(`&=` does not short-circuit). -/
def resolve_rows (finder : PhysPageFinder) : List (Nat × Nat) → Bool × List Nat
  | [] => (true, [])
  | x :: rest =>
    let hd := match finder.find_page x.1 with
              | none => (false, x.2)
              | some v => (true, v)
    let tl := resolve_rows finder rest
    (hd.1 && tl.1, hd.2 :: tl.2)

/-- `BitFlipper::find_pages` (src/bit_flipper.cpp): resolves aggressor rows,
then victim rows; returns the accumulated `found` flag and the two updated
virtual-address vectors. -/
def find_pages (phys : HammerAddrs) (virt_aggs virt_victims : List Nat)
    (finder : PhysPageFinder) : Bool × List Nat × List Nat :=
  let a := resolve_rows finder (phys.aggs.zip virt_aggs)
  let v := resolve_rows finder (phys.victims.zip virt_victims)
  (a.1 && v.1, a.2, v.2)

/-! ## Hammer pattern

Modelled from the spec: the implementation file of `HammerPattern`
(`HammerPattern::create_pattern`, hammer_pattern.cpp) is not among the
provided sources; only the header `hammer_pattern.h` declares it.  The model
follows the spec: `v` and `a` tokens become victim/aggressor bits, each `x`
token becomes a run of victim bits of randomly drawn length (the draw is an
oracle parameter here), the template is repeated until the number of
aggressor bits reaches the requested count (rounded up to whole periods), and
a trailing victim bit is appended when the sequence ends in an aggressor. -/

/-- Modelled from the spec: expansion of one period of the textual pattern.
`fill k` is the length of the victim run substituted for the `k`-th `x` token
of the period. -/
def expand_desc (fill : Nat → Nat) : List Char → Nat → List Bool
  | [], _ => []
  | c :: rest, k =>
    if c = 'a' then true :: expand_desc fill rest k
    else if c = 'v' then false :: expand_desc fill rest k
    else List.replicate (fill k) false ++ expand_desc fill rest (k + 1)

/-- Modelled from the spec: the body of the pattern, `periods` repetitions of
the expanded template (each period draws its own random fills). -/
def pattern_body (desc : List Char) (fills : Nat → Nat → Nat) (periods : Nat) :
    List Bool :=
  List.flatten ((List.range periods).map (fun per => expand_desc (fills per) desc 0))

/-- Modelled from the spec: `HammerPattern` construction.  `fills per k` is
the random victim-run length drawn for the `k`-th `x` token of period `per`;
the period count is the requested aggressor count divided by the aggressors
per period, rounded up; a trailing victim is appended when the body ends in
an aggressor. -/
def create_pattern (desc : List Char) (fills : Nat → Nat → Nat)
    (aggressor_rows : Nat) : List Bool :=
  let perA := desc.count 'a'
  let periods := (aggressor_rows + perA - 1) / perA
  let body := pattern_body desc fills periods
  if body.getLast? = some true then body ++ [false] else body

/-! ## Non-contiguous flip finder (noncontiguous_flip_finder.cpp) -/

/-- `uint64_t` subtraction (`row_t` is `uint64_t`). -/
def u64_sub (a b : Nat) : Nat := (a % U64 + U64 - b % U64) % U64

/-- `std::set::lower_bound` on the ordered set of missing rows, embedded as a
sorted list: the first element that is `≥ key`. -/
def lower_bound (l : List Nat) (key : Nat) : Option Nat :=
  l.find? (fun m => decide (key ≤ m))

/-- `NoncontiguousFlipFinder::is_any_row_missing`: true iff the bank's
missing-row set contains a row in
`[first_row - row_padding, last_row + row_padding]`, both bounds computed in
`uint64_t` arithmetic. -/
def is_any_row_missing (missing : List Nat) (row_padding first_row last_row : Nat) :
    Bool :=
  match lower_bound missing (u64_sub first_row row_padding) with
  | none => false
  | some m => decide (m ≤ (last_row + row_padding) % U64)

/-- Outcome of one `NoncontiguousFlipFinder::hammer` call. -/
inductive HammerOutcome where
  | skipped
  | pageError
  | hammered
deriving DecidableEq, Repr

/-- Control flow of `NoncontiguousFlipFinder::hammer`
(noncontiguous_flip_finder.cpp): a window whose padded interval touches a
missing row returns `true` immediately (continue, no events); a failed page
resolution logs an error and returns `false` (stop); otherwise the flipper
hammers (its emitted events are the parameter `flips`) and the call returns
`!do_exit`.  The second component is the returned `bool`, the third the
events emitted by the call. -/
def nc_hammer (missing : List Nat) (row_padding first_victim last_victim : Nat)
    (pages_found : Bool) (flips : List FlipEvent) (do_exit : Bool) :
    HammerOutcome × Bool × List FlipEvent :=
  if is_any_row_missing missing row_padding first_victim last_victim then
    (HammerOutcome.skipped, true, [])
  else if pages_found = false then (HammerOutcome.pageError, false, [])
  else (HammerOutcome.hammered, !do_exit, flips)

/-! ## Configuration verification (include/config.h, src/config.cpp) -/

/-- The configuration fields involved in the two normalization steps of
`Config::verify_values` modelled below (the preceding mask and bank checks
either exit fatally or touch only the `banks` list). -/
structure Config where
  test_min_rows : Nat
  row_padding : Nat
  test_max_rows : Nat
  aggressor_rows : Nat
  victim_init : List Nat
  aggressor_init : List Nat
deriving DecidableEq, Repr

/-- The `test_max_rows` step of `Config::verify_values` (src/config.cpp):
`if (test_max_rows > 0 && test_max_rows < test_min_rows + row_padding * 2)`
raise it to the floor and log a warning (the returned flag). -/
def verify_test_max_rows (c : Config) : Config × Bool :=
  let lb := c.test_min_rows + c.row_padding * 2
  if 0 < c.test_max_rows ∧ c.test_max_rows < lb then
    ({ c with test_max_rows := lb }, true)
  else (c, false)

/-- The `aggressor_init` step of `Config::verify_values` (src/config.cpp): an
empty list is resized to `victim_init`'s length and filled with the bitwise
complement of each victim word. -/
def verify_aggressor_init (c : Config) : Config :=
  if c.aggressor_init.isEmpty then
    { c with aggressor_init := c.victim_init.map u64_not }
  else c

/-- The modelled normalization pipeline of `Config::verify_values`:
the `test_max_rows` step followed by the `aggressor_init` step (the final
equal-length check exits fatally and changes nothing). -/
def verify_values (c : Config) : Config × Bool :=
  let s1 := verify_test_max_rows c
  (verify_aggressor_init s1.1, s1.2)


/-! # Theorems

## Bit-level lemmas -/

theorem pcGo_zero (fuel : Nat) : pcGo fuel 0 = 0 := by
  induction fuel with
  | zero => rfl
  | succ f ih => simp [pcGo, ih]

theorem pcGo_two_pow_sub_one : ∀ w fuel, w ≤ fuel → pcGo fuel (2 ^ w - 1) = w := by
  intro w
  induction w with
  | zero => intro fuel _; simpa using pcGo_zero fuel
  | succ n ih =>
    intro fuel hle
    obtain ⟨f, rfl⟩ : ∃ f, fuel = f + 1 := ⟨fuel - 1, by omega⟩
    have h1 : 1 ≤ 2 ^ n := Nat.one_le_two_pow
    have hpow : 2 ^ (n + 1) = 2 * 2 ^ n := by rw [Nat.pow_succ, Nat.mul_comm]
    have hv : 2 ^ (n + 1) - 1 = 2 * (2 ^ n - 1) + 1 := by omega
    have hmod : (2 * (2 ^ n - 1) + 1) % 2 = 1 := by omega
    have hdiv : (2 * (2 ^ n - 1) + 1) / 2 = 2 ^ n - 1 := by omega
    rw [hv]
    simp only [pcGo, hmod, hdiv]
    rw [ih f (by omega)]
    omega

theorem pcGo_contig : ∀ o fuel w, o + w ≤ fuel → pcGo fuel (contigMask o w) = w := by
  intro o
  induction o with
  | zero =>
    intro fuel w h
    simpa [contigMask, Nat.shiftLeft_zero] using pcGo_two_pow_sub_one w fuel (by omega)
  | succ n ih =>
    intro fuel w h
    obtain ⟨f, rfl⟩ : ∃ f, fuel = f + 1 := ⟨fuel - 1, by omega⟩
    have hv : contigMask (n + 1) w = 2 * contigMask n w := by
      simp [contigMask, Nat.shiftLeft_eq, Nat.pow_succ]
      ring
    have hmod : (2 * contigMask n w) % 2 = 0 := Nat.mul_mod_right 2 _
    have hdiv : (2 * contigMask n w) / 2 = contigMask n w := by omega
    rw [hv]
    simp only [pcGo, hmod, hdiv]
    rw [ih f w (by omega)]
    omega

theorem count_one_bits_contig (o w : Nat) (h : o + w ≤ 64) :
    count_one_bits (contigMask o w) = w := pcGo_contig o 64 w h

theorem ctzGo_contig : ∀ o fuel w, 0 < w → o < fuel → ctzGo fuel (contigMask o w) = o := by
  intro o
  induction o with
  | zero =>
    intro fuel w hw hfuel
    obtain ⟨f, rfl⟩ : ∃ f, fuel = f + 1 := ⟨fuel - 1, by omega⟩
    have hpow : 2 ^ w = 2 * 2 ^ (w - 1) := by
      obtain ⟨n, rfl⟩ : ∃ n, w = n + 1 := ⟨w - 1, by omega⟩
      rw [Nat.pow_succ, Nat.mul_comm]
      simp
    have h1 : 1 ≤ 2 ^ (w - 1) := Nat.one_le_two_pow
    have hmod : contigMask 0 w % 2 = 1 := by
      simp only [contigMask, Nat.shiftLeft_zero]
      omega
    simp [ctzGo, hmod]
  | succ n ih =>
    intro fuel w hw hfuel
    obtain ⟨f, rfl⟩ : ∃ f, fuel = f + 1 := ⟨fuel - 1, by omega⟩
    have hv : contigMask (n + 1) w = 2 * contigMask n w := by
      simp [contigMask, Nat.shiftLeft_eq, Nat.pow_succ]
      ring
    have hdiv : (2 * contigMask n w) / 2 = contigMask n w := by omega
    rw [hv]
    simp only [ctzGo, Nat.mul_mod_right 2]
    rw [if_neg (by omega), hdiv, ih f w hw (by omega)]
    omega

theorem ctz_contig (o w : Nat) (hw : 0 < w) (h : o < 64) :
    count_trailing_zero_bits (contigMask o w) = o := ctzGo_contig o 64 w hw h

theorem testBit_contigMask (o w j : Nat) :
    (contigMask o w).testBit j = (decide (o ≤ j) && decide (j - o < w)) := by
  simp [contigMask, Nat.testBit_shiftLeft]

theorem shr_shl_and_contig (p o w : Nat) :
    (((p &&& contigMask o w) >>> o) <<< o) = p &&& contigMask o w := by
  apply Nat.eq_of_testBit_eq
  intro j
  rcases Nat.lt_or_ge j o with hj | hj
  · simp [Nat.testBit_shiftLeft, Nat.testBit_and, testBit_contigMask,
      Nat.not_le.mpr hj]
  · simp [Nat.testBit_shiftLeft, Nat.testBit_shiftRight, hj,
      Nat.add_sub_cancel' hj]

theorem field_lt (p o w : Nat) : (p &&& contigMask o w) >>> o < 2 ^ w := by
  have hpos : 0 < 2 ^ o := Nat.pos_pow_of_pos o (by decide)
  rw [Nat.shiftRight_eq_div_pow, Nat.div_lt_iff_lt_mul hpos]
  have h1 : p &&& contigMask o w ≤ contigMask o w := Nat.and_le_right
  have h2 : contigMask o w < 2 ^ w * 2 ^ o := by
    rw [contigMask, Nat.shiftLeft_eq]
    have h3 : 2 ^ w - 1 < 2 ^ w := by
      have := Nat.one_le_two_pow (n := w)
      omega
    exact (Nat.mul_lt_mul_right hpos).mpr h3
  omega

/-! ## DRAM address model: extraction/placement inversion -/

theorem extract_masks_foldl (p : Nat) :
    ∀ (masks : List Nat) (r0 off : Nat),
      (masks.foldl
        (fun acc mask =>
          (acc.1 + (((p &&& mask) >>> count_trailing_zero_bits mask) <<< acc.2),
           acc.2 + count_one_bits mask))
        (r0, off)).1 = r0 + (packFields p masks <<< off) := by
  intro masks
  induction masks with
  | nil => intro r0 off; simp [packFields]
  | cons m ms ih =>
    intro r0 off
    simp only [List.foldl_cons, packFields]
    rw [ih]
    simp only [Nat.shiftLeft_eq]
    ring

theorem extract_masks_eq (masks : List Nat) (p : Nat) :
    (extract_masks masks p).1 = packFields p masks := by
  have h := extract_masks_foldl p masks 0 0
  simpa [extract_masks] using h

theorem place_masks_foldl :
    ∀ (masks : List Nat) (acc0 v0 : Nat),
      place_masks masks acc0 v0 = acc0 ||| placeFields v0 masks := by
  intro masks
  induction masks with
  | nil => intro acc0 v0; simp [place_masks, placeFields]
  | cons m ms ih =>
    intro acc0 v0
    simp only [place_masks, List.foldl_cons] at ih ⊢
    rw [ih]
    simp [placeFields, pop_least_significant_bits, Nat.or_assoc]

theorem placeFields_packFields :
    ∀ (masks : List Nat) (p : Nat), (∀ m ∈ masks, WellMask m) →
      placeFields (packFields p masks) masks = p &&& unionFields masks := by
  intro masks
  induction masks with
  | nil => intro p _; simp [packFields, placeFields, unionFields]
  | cons m ms ih =>
    intro p hwf
    obtain ⟨o, w, hw, hw30, how, rfl⟩ := hwf m (List.mem_cons_self m ms)
    have hms : ∀ x ∈ ms, WellMask x := fun x hx => hwf x (List.mem_cons_of_mem _ hx)
    have hn : count_one_bits (contigMask o w) = w := count_one_bits_contig o w how
    have ho : count_trailing_zero_bits (contigMask o w) = o :=
      ctz_contig o w hw (by omega)
    have hlow : cpp_low_mask w = 2 ^ w - 1 := by simp [cpp_low_mask, hw30]
    have hfield : (p &&& contigMask o w) >>> o < 2 ^ w := field_lt p o w
    simp only [packFields, placeFields, hn, ho, hlow]
    have hv1 : (((p &&& contigMask o w) >>> o) + (packFields p ms <<< w)) &&& (2 ^ w - 1)
        = (p &&& contigMask o w) >>> o := by
      rw [Nat.and_pow_two_sub_one_eq_mod, Nat.shiftLeft_eq,
        Nat.add_mul_mod_self_right, Nat.mod_eq_of_lt hfield]
    have hv2 : (((p &&& contigMask o w) >>> o) + (packFields p ms <<< w)) >>> w
        = packFields p ms := by
      rw [Nat.shiftRight_eq_div_pow, Nat.shiftLeft_eq,
        Nat.add_mul_div_right _ _ (Nat.pos_pow_of_pos w (by decide)),
        Nat.div_eq_of_lt hfield]
      omega
    rw [hv1, hv2, shr_shl_and_contig, ih p hms, unionFields,
      Nat.and_or_distrib_left]

/-! ## DRAM address model: the bank bits and the correction loop -/

theorem xor_bits_of_and_zero (p f : Nat) (h : p &&& f = 0) : xor_bits p f = 0 := by
  simp [xor_bits, h, count_one_bits, pcGo_zero]

theorem bank_fold_const (p : Nat) :
    ∀ (l : List (Nat × Nat)) (b : Nat), (∀ x ∈ l, xor_bits p x.2 = 0) →
      l.foldl (fun bank x => bank ||| (xor_bits p x.2 <<< x.1)) b = b := by
  intro l
  induction l with
  | nil => intro b _; rfl
  | cons x l ih =>
    intro b hall
    simp only [List.foldl_cons]
    rw [hall x (List.mem_cons_self x l), Nat.zero_shiftLeft, Nat.or_zero]
    exact ih b fun y hy => hall y (List.mem_cons_of_mem x hy)

theorem get_dram_bank_zero (L : DRAMLayout) (p : Nat)
    (h : ∀ f ∈ L.h_fns, p &&& f = 0) : get_dram_bank L p = 0 := by
  apply bank_fold_const
  intro x hx
  exact xor_bits_of_and_zero p x.2 (h x.2 (List.snd_mem_of_mem_enum hx))

theorem hcorr_fold_id (bank nr nc : Nat) :
    ∀ (l : List (Nat × Nat)) (p0 : Nat),
      (∀ x ∈ l, xor_bits p0 x.2 = (bank >>> x.1) &&& 1) →
      l.foldl
        (fun p_addr x =>
          if xor_bits p_addr x.2 = (bank >>> x.1) &&& 1 then p_addr
          else
            p_addr ^^^
              cpp_one_shl (count_trailing_zero_bits (x.2 &&& nc &&& nr)))
        p0 = p0 := by
  intro l
  induction l with
  | nil => intro p0 _; rfl
  | cons x l ih =>
    intro p0 hall
    simp only [List.foldl_cons, if_pos (hall x (List.mem_cons_self x l))]
    exact ih p0 fun y hy => hall y (List.mem_cons_of_mem x hy)

theorem apply_h_fns_id (L : DRAMLayout) (p0 : Nat)
    (h : ∀ f ∈ L.h_fns, p0 &&& f = 0) : apply_h_fns L 0 p0 = p0 := by
  unfold apply_h_fns
  apply hcorr_fold_id
  intro x hx
  rw [xor_bits_of_and_zero p0 x.2 (h x.2 (List.snd_mem_of_mem_enum hx)),
    Nat.zero_shiftRight, Nat.zero_and]

theorem and_union_eq_self_and_f_zero (p f U : Nat) (hp : p &&& U = p)
    (hf : f &&& U = 0) : p &&& f = 0 := by
  calc p &&& f = (p &&& U) &&& f := by rw [hp]
  _ = p &&& (f &&& U) := by rw [Nat.and_assoc, Nat.and_comm U f]
  _ = 0 := by rw [hf, Nat.and_zero]

theorem place_get_single (m p : Nat) (hm : WellMask m) :
    ((p &&& m) >>> count_trailing_zero_bits m) <<< count_trailing_zero_bits m
      = p &&& m := by
  obtain ⟨o, w, hw, _, how, rfl⟩ := hm
  rw [ctz_contig o w hw (by omega)]
  exact shr_shl_and_contig p o w

/-- C1 (amended): for a layout whose row and column masks are nonzero
contiguous bit fields of width at most 30 lying within 64 bits and whose
h-functions share no bit with any row or column mask, every physical address
whose set bits lie within the row and column masks round-trips:
`DRAMAddr(p).phys() == p`.  (The claim as stated also admits addresses with
bits inside the h-function masks; those need not round-trip, see the
counterexample.) -/
theorem dram_roundtrip (L : DRAMLayout) (p : Nat)
    (hrow : ∀ m ∈ L.row_masks, WellMask m)
    (hcol : ∀ m ∈ L.col_masks, WellMask m)
    (hfns : ∀ f ∈ L.h_fns,
      f &&& (unionFields L.row_masks ||| unionFields L.col_masks) = 0)
    (hp : p &&& (unionFields L.row_masks ||| unionFields L.col_masks) = p) :
    DRAMAddr.physOf L (DRAMAddr.ofPhys L p) = p := by
  have hrowpart :
      (if L.row_masks.length = 1 then
        get_dram_row L p <<< count_trailing_zero_bits L.row_masks.head!
      else place_masks L.row_masks 0 (get_dram_row L p))
        = p &&& unionFields L.row_masks := by
    by_cases hlen : L.row_masks.length = 1
    · obtain ⟨m, hm⟩ := List.length_eq_one.mp hlen
      have hms : WellMask m := hrow m (by simp [hm])
      simp only [hm, get_dram_row, List.head!, List.length_cons, List.length_nil,
        Nat.zero_add, if_true]
      rw [place_get_single m p hms]
      simp [unionFields]
    · simp only [if_neg hlen]
      rw [get_dram_row, if_neg hlen, extract_masks_eq, place_masks_foldl,
        placeFields_packFields L.row_masks p hrow, Nat.zero_or]
  have hcolpart : ∀ init : Nat,
      (if L.col_masks.length = 1 then
        init ||| (get_dram_col L p <<< count_trailing_zero_bits L.col_masks.head!)
      else place_masks L.col_masks init (get_dram_col L p))
        = init ||| (p &&& unionFields L.col_masks) := by
    intro init
    by_cases hlen : L.col_masks.length = 1
    · obtain ⟨m, hm⟩ := List.length_eq_one.mp hlen
      have hms : WellMask m := hcol m (by simp [hm])
      simp only [hm, get_dram_col, List.head!, List.length_cons, List.length_nil,
        Nat.zero_add, if_true]
      rw [place_get_single m p hms]
      simp [unionFields]
    · simp only [if_neg hlen]
      rw [get_dram_col, if_neg hlen, extract_masks_eq, place_masks_foldl,
        placeFields_packFields L.col_masks p hcol]
  have hU : (p &&& unionFields L.row_masks) ||| (p &&& unionFields L.col_masks) = p := by
    rw [← Nat.and_or_distrib_left]
    exact hp
  have hpf : ∀ f ∈ L.h_fns, p &&& f = 0 := fun f hf =>
    and_union_eq_self_and_f_zero p f _ hp (hfns f hf)
  have hbank : get_dram_bank L p = 0 := get_dram_bank_zero L p hpf
  simp only [DRAMAddr.physOf, DRAMAddr.ofPhys, hbank]
  rw [hrowpart, hcolpart, hU]
  exact apply_h_fns_id L p hpf

/-- Witness for `dram_roundtrip`: layout `h_fns = [0x6]`, `row_masks = [0x8]`,
`col_masks = [0x1]` and address 9 (row bit 3 and column bit 0 set). -/
theorem dram_roundtrip_witness :
    DRAMAddr.physOf ⟨[6], [8], [1]⟩ (DRAMAddr.ofPhys ⟨[6], [8], [1]⟩ 9) = 9 :=
  dram_roundtrip ⟨[6], [8], [1]⟩ 9
    (by
      intro m hm
      simp only [List.mem_singleton] at hm
      subst hm
      exact ⟨3, 1, by decide, by decide, by decide, rfl⟩)
    (by
      intro m hm
      simp only [List.mem_singleton] at hm
      subst hm
      exact ⟨0, 1, by decide, by decide, by decide, rfl⟩)
    (by decide)
    (by decide)

/-- C1 counterexample: with `h_fns = [0x6]`, `row_masks = [0x8]`,
`col_masks = [0x1]`, the h-functions share no bit with the row or column
masks and the address 4 has all its set bits inside the h-function bits, yet
`DRAMAddr(4).phys()` returns 2, not 4 (the correction loop toggles the lowest
h-function bit, bit 1, not the bit that was set). -/
theorem dram_roundtrip_counterexample :
    ((6 : Nat) &&& 8 = 0 ∧ (6 : Nat) &&& 1 = 0) ∧
    ((4 : Nat) &&& (8 ||| 1 ||| 6) = 4) ∧
    DRAMAddr.physOf ⟨[6], [8], [1]⟩ (DRAMAddr.ofPhys ⟨[6], [8], [1]⟩ 4) ≠ 4 := by
  decide

/-- C2 counterexample: for the default layout, the spec's expected values are
wrong: `DRAMAddr(0x12345000)` is not `(bank 9, row 0x48d, col 0)` and
`DRAMAddr(9, 0x48d, 0).phys()` returns 0x12366000, not 0x12345000. -/
theorem dram_example_counterexample :
    ¬(DRAMAddr.ofPhys defaultLayout 0x12345000 = ⟨9, 0x48d, 0⟩ ∧
      DRAMAddr.physOf defaultLayout ⟨9, 0x48d, 0⟩ = 0x12345000) := by
  decide

/-- C2 (amended): for the default layout,
`DRAMAddr(0x12345000) = (bank 24, row 0x48d, col 0x1000)` and
`DRAMAddr(24, 0x48d, 0x1000).phys() = 0x12345000`. -/
theorem dram_example_roundtrip :
    DRAMAddr.ofPhys defaultLayout 0x12345000 = ⟨24, 0x48d, 0x1000⟩ ∧
    DRAMAddr.physOf defaultLayout ⟨24, 0x48d, 0x1000⟩ = 0x12345000 := by
  decide


/-! ## Physical page finder -/

/-- C3 counterexample: with `mem = 0` and frame 1 mapped at page offset 0,
`find_page(0x1008)` succeeds but returns the page-start virtual address 0:
its in-page offset 0 differs from the physical in-page offset 8, because the
code does not re-add `phys % page_size`. -/
theorem find_page_counterexample :
    (PhysPageFinder.find_page ⟨0, [(1, 0)]⟩ 4104 = some 0) ∧
    ¬((0 : Nat) &&& (page_size - 1) = (4104 : Nat) &&& (page_size - 1)) := by
  decide

/-- C3 (amended): when the frame number `phys / page_size` is present in the
pagemap, `find_page` returns `mem + offset * page_size`, the virtual address
of the start of the owning page; its in-page offset equals that of `mem`, and
the claimed offset-preservation equality holds when `mem` and `phys` are both
page-aligned. -/
theorem find_page_present (f : PhysPageFinder) (phys off : Nat)
    (h : f.pagemap.lookup (phys / page_size) = some off) :
    f.find_page phys = some (f.mem + off * page_size) ∧
    (f.mem + off * page_size) % page_size = f.mem % page_size ∧
    (f.mem % page_size = 0 → phys % page_size = 0 →
      (f.mem + off * page_size) &&& (page_size - 1) = phys &&& (page_size - 1)) := by
  have hand : ∀ x : Nat, x &&& (page_size - 1) = x % page_size := by
    intro x
    have h12 : page_size = 2 ^ 12 := by norm_num [page_size]
    rw [h12, Nat.and_pow_two_sub_one_eq_mod]
  refine ⟨?_, ?_, ?_⟩
  · simp [PhysPageFinder.find_page, h]
  · exact Nat.add_mul_mod_self_right f.mem off page_size
  · intro h1 h2
    rw [hand, hand, Nat.add_mul_mod_self_right, h1, h2]

/-- Witness for `find_page_present`: `mem = 0`, frame 1 at offset 0, and the
page-aligned physical address 0x1000. -/
theorem find_page_present_witness :
    PhysPageFinder.find_page ⟨0, [(1, 0)]⟩ 4096 = some (0 + 0 * page_size) ∧
    (0 + 0 * page_size) % page_size = 0 % page_size ∧
    ((0 : Nat) % page_size = 0 → (4096 : Nat) % page_size = 0 →
      (0 + 0 * page_size) &&& (page_size - 1) = (4096 : Nat) &&& (page_size - 1)) :=
  find_page_present ⟨0, [(1, 0)]⟩ 4096 0 (by decide)

/-! ## Bit flip scan -/

theorem length_filterMap_eq_countP {α β : Type} (f : α → Option β) :
    ∀ l : List α, (l.filterMap f).length = l.countP (fun a => (f a).isSome) := by
  intro l
  induction l with
  | nil => rfl
  | cons a l ih =>
    cases hfa : f a with
    | none => simp [List.filterMap_cons, hfa, List.countP_cons, ih]
    | some b => simp [List.filterMap_cons, hfa, List.countP_cons, ih]

theorem pcGo_eq_countP :
    ∀ fuel d, d < 2 ^ fuel →
      pcGo fuel d = (List.range fuel).countP (fun b => d.testBit b) := by
  intro fuel
  induction fuel with
  | zero => intro d _; rfl
  | succ f ih =>
    intro d hd
    have hdiv : d / 2 < 2 ^ f := by
      have hpow : 2 ^ (f + 1) = 2 * 2 ^ f := by rw [Nat.pow_succ, Nat.mul_comm]
      omega
    have hfun : ((fun b => d.testBit b) ∘ Nat.succ) = (fun b => (d / 2).testBit b) := by
      funext b
      exact Nat.testBit_succ d b
    rw [List.range_succ_eq_map, List.countP_cons, List.countP_map, hfun]
    simp only [pcGo]
    rw [ih (d / 2) hdiv]
    rcases Nat.mod_two_eq_zero_or_one d with h | h <;>
      simp [Nat.testBit_zero, h] <;> omega

theorem count_one_bits_eq_countP (d : Nat) (hd : d < U64) :
    count_one_bits d = (List.range 64).countP (fun b => d.testBit b) :=
  pcGo_eq_countP 64 d hd

theorem shr_and_one (x b : Nat) :
    (x >>> b) &&& 1 = if x.testBit b then 1 else 0 := by
  rw [Nat.and_one_is_mod, Nat.shiftRight_eq_div_pow, Nat.testBit_to_div_mod]
  rcases Nat.mod_two_eq_zero_or_one (x / 2 ^ b) with h | h <;> simp [h]

theorem diff_iff_testBit (a c b : Nat) :
    ((a >>> b) &&& 1 = (c >>> b) &&& 1) ↔ (a.testBit b = c.testBit b) := by
  rw [shr_and_one, shr_and_one]
  cases ha : a.testBit b <;> cases hc : c.testBit b <;> simp

/-- Every event in a word scan arises from one differing bit position. -/
theorem mem_check_word_elim (victim_init w ph : Nat) (e : FlipEvent)
    (he : e ∈ check_word victim_init w ph) :
    ∃ b, b < 64 ∧ ¬((victim_init >>> b) &&& 1 = (w >>> b) &&& 1) ∧
      e = ⟨ph + b / 8, b % 8, (w >>> b) &&& 1⟩ := by
  by_cases hne : w = victim_init
  · rw [check_word, if_pos hne] at he
    simp at he
  · rw [check_word, if_neg hne] at he
    obtain ⟨b, hb, hemit⟩ := List.mem_filterMap.mp he
    by_cases hc : (victim_init >>> b) &&& 1 = (w >>> b) &&& 1
    · rw [if_pos hc] at hemit
      simp at hemit
    · rw [if_neg hc] at hemit
      exact ⟨b, List.mem_range.mp hb, hc, (Option.some_inj.mp hemit).symm⟩

/-- C4: for every 64-bit victim word `w` observed at word address `ph`
during the flip scan, with `w ≠ victim_init`, the scan emits exactly
`popcount(w ^ victim_init)` events for that word, and each event's direction
(`flips_to`) equals `(w >> bit) & 1` for the flipped bit position `bit`
(recovered from the event's byte-precise address and bit-in-byte index). -/
theorem flip_scan_word (victim_init w ph : Nat)
    (hinit : victim_init < U64) (hw : w < U64) (hne : w ≠ victim_init) :
    (check_word victim_init w ph).length = count_one_bits (w ^^^ victim_init) ∧
    ∀ e ∈ check_word victim_init w ph,
      e.flips_to = (w >>> e.bit_in_word ph) &&& 1 := by
  constructor
  · rw [check_word, if_neg hne, length_filterMap_eq_countP]
    have hfun :
        (fun bit =>
          (if (victim_init >>> bit) &&& 1 = (w >>> bit) &&& 1 then none
           else
             some { victim_phys := ph + bit / 8, victim_bit := bit % 8,
                    flips_to := (w >>> bit) &&& 1 } : Option FlipEvent).isSome)
          = (fun b => (w ^^^ victim_init).testBit b) := by
      funext b
      by_cases hc : (victim_init >>> b) &&& 1 = (w >>> b) &&& 1
      · have hbit : victim_init.testBit b = w.testBit b := (diff_iff_testBit _ _ b).mp hc
        simp [hc, Nat.testBit_xor, hbit]
      · have hbit : victim_init.testBit b ≠ w.testBit b := fun hx =>
          hc ((diff_iff_testBit _ _ b).mpr hx)
        have hxor : (w ^^^ victim_init).testBit b = true := by
          rw [Nat.testBit_xor]
          cases h1 : victim_init.testBit b <;> cases h2 : w.testBit b <;>
            simp_all
        rw [if_neg hc, hxor]
        rfl
    rw [hfun, ← count_one_bits_eq_countP (w ^^^ victim_init)
      (Nat.xor_lt_two_pow hw hinit)]
  · intro e he
    obtain ⟨b, hb64, _, rfl⟩ := mem_check_word_elim victim_init w ph e he
    have hbit : FlipEvent.bit_in_word ⟨ph + b / 8, b % 8, (w >>> b) &&& 1⟩ ph = b := by
      unfold FlipEvent.bit_in_word
      simp only [Nat.add_sub_cancel_left]
      omega
    rw [hbit]

/-- Witness for `flip_scan_word`: scenario 4 of the spec, `victim_init = 0`
and observed word `0x81`: two events, both with direction 1. -/
theorem flip_scan_word_witness :
    (check_word 0 0x81 0).length = count_one_bits (0x81 ^^^ 0) ∧
    ∀ e ∈ check_word 0 0x81 0,
      e.flips_to = ((0x81 : Nat) >>> e.bit_in_word 0) &&& 1 :=
  flip_scan_word 0 0x81 0 (by decide) (by decide) (by decide)

/-- C6 counterexample: for `victim_init = 0` and observed word `0x200`
(bit 9 flipped), the emitted event does not carry the word's physical
address together with a bit index that identifies the flipped bit within the
64-bit word: the code emits byte address `word + 1` with bit index 1. -/
theorem flip_event_counterexample :
    ∃ e ∈ check_word 0 512 0,
      ¬(e.victim_phys = 0 ∧ ((512 : Nat) ^^^ 0).testBit e.victim_bit = true) := by
  decide

/-- C6 (amended): every emitted event carries a bit index in the range 0..7
identifying the flipped bit within the byte at the event's byte-precise
victim physical address (which lies inside the scanned 64-bit word at
`flip_offset_bytes`), together with the flip direction; the absolute bit
position it denotes, `(victim_phys - word_phys) * 8 + victim_bit`, is a
genuinely flipped bit of the word and determines the direction. -/
theorem flip_event_fields (victim_init w ph : Nat) (e : FlipEvent)
    (he : e ∈ check_word victim_init w ph) :
    e.victim_bit < 8 ∧ ph ≤ e.victim_phys ∧ e.victim_phys < ph + 8 ∧
    (w ^^^ victim_init).testBit (e.bit_in_word ph) = true ∧
    e.flips_to = (w >>> e.bit_in_word ph) &&& 1 := by
  obtain ⟨b, hb64, hdiff, rfl⟩ := mem_check_word_elim victim_init w ph e he
  have hbit : FlipEvent.bit_in_word ⟨ph + b / 8, b % 8, (w >>> b) &&& 1⟩ ph = b := by
    unfold FlipEvent.bit_in_word
    simp only [Nat.add_sub_cancel_left]
    omega
  refine ⟨by simp; omega, by simp, by simp; omega, ?_, by rw [hbit]⟩
  rw [hbit, Nat.testBit_xor]
  have hbitneq : victim_init.testBit b ≠ w.testBit b := fun hx =>
    hdiff ((diff_iff_testBit _ _ b).mpr hx)
  cases h1 : victim_init.testBit b <;> cases h2 : w.testBit b <;> simp_all

/-- Witness for `flip_event_fields`: the single event of scanning word 0x200
against init 0 at word address 0. -/
theorem flip_event_fields_witness :
    FlipEvent.victim_bit ⟨1, 1, 1⟩ < 8 ∧ 0 ≤ FlipEvent.victim_phys ⟨1, 1, 1⟩ ∧
    FlipEvent.victim_phys ⟨1, 1, 1⟩ < 0 + 8 ∧
    ((512 : Nat) ^^^ 0).testBit (FlipEvent.bit_in_word ⟨1, 1, 1⟩ 0) = true ∧
    FlipEvent.flips_to ⟨1, 1, 1⟩ = ((512 : Nat) >>> FlipEvent.bit_in_word ⟨1, 1, 1⟩ 0) &&& 1 :=
  flip_event_fields 0 512 0 ⟨1, 1, 1⟩ (by decide)


/-! ## Page resolution of the bit flipper -/

theorem resolve_rows_spec (finder : PhysPageFinder) :
    ∀ l : List (Nat × Nat),
      resolve_rows finder l
        = (l.all (fun x => (finder.find_page x.1).isSome),
           l.map (fun x => (finder.find_page x.1).getD x.2)) := by
  intro l
  induction l with
  | nil => rfl
  | cons x l ih =>
    cases hfp : finder.find_page x.1 <;>
      simp [resolve_rows, ih, hfp]

/-- C5 counterexample: with frame 0 owned and frame 1 missing, resolving the
aggressor rows at physical addresses 0 and 0x1000 returns `false` but has
already updated the first virtual-address entry (from 11 to 0x7000):
`found &= find_page(...)` does not short-circuit and `find_page` writes its
out-parameter for every page it finds. -/
theorem find_pages_counterexample :
    (find_pages ⟨[0, 4096], []⟩ [11, 22] [] ⟨0, [(0, 7)]⟩).1 = false ∧
    (find_pages ⟨[0, 4096], []⟩ [11, 22] [] ⟨0, [(0, 7)]⟩).2.1 ≠ [11, 22] := by
  decide

/-- C5 (amended): if any aggressor or victim row is missing from the pagemap,
`find_pages` returns `false`; the virtual-address entries of rows that were
found are updated to their resolved addresses, while entries of missing rows
keep their previous values (so the update is partial, not absent). -/
theorem find_pages_missing (phys : HammerAddrs) (va vv : List Nat)
    (finder : PhysPageFinder)
    (ha : va.length = phys.aggs.length) (hv : vv.length = phys.victims.length)
    (hmiss : (∃ p ∈ phys.aggs, finder.find_page p = none) ∨
             (∃ p ∈ phys.victims, finder.find_page p = none)) :
    (find_pages phys va vv finder).1 = false ∧
    (find_pages phys va vv finder).2.1
      = (phys.aggs.zip va).map (fun x => (finder.find_page x.1).getD x.2) ∧
    (find_pages phys va vv finder).2.2
      = (phys.victims.zip vv).map (fun x => (finder.find_page x.1).getD x.2) := by
  have hall : ∀ (pl vl : List Nat), vl.length = pl.length →
      (∃ p ∈ pl, finder.find_page p = none) →
      (pl.zip vl).all (fun x => (finder.find_page x.1).isSome) = false := by
    intro pl
    induction pl with
    | nil =>
      rintro vl _ ⟨p, hp, _⟩
      simp at hp
    | cons q pl ih =>
      intro vl hlen hex
      cases vl with
      | nil => simp at hlen
      | cons y vl2 =>
        obtain ⟨p, hp, hnone⟩ := hex
        rcases List.mem_cons.mp hp with rfl | hp2
        · simp [List.zip_cons_cons, hnone]
        · have := ih vl2 (by simpa using hlen) ⟨p, hp2, hnone⟩
          simp [List.zip_cons_cons, this]
  have hA := resolve_rows_spec finder (phys.aggs.zip va)
  have hV := resolve_rows_spec finder (phys.victims.zip vv)
  refine ⟨?_, ?_, ?_⟩
  · show ((resolve_rows finder (phys.aggs.zip va)).1 &&
        (resolve_rows finder (phys.victims.zip vv)).1) = false
    rw [hA, hV]
    rcases hmiss with hm | hm
    · rw [hall phys.aggs va ha hm]
      rfl
    · rw [hall phys.victims vv hv hm, Bool.and_false]
  · show (resolve_rows finder (phys.aggs.zip va)).2
      = (phys.aggs.zip va).map (fun x => (finder.find_page x.1).getD x.2)
    rw [hA]
  · show (resolve_rows finder (phys.victims.zip vv)).2
      = (phys.victims.zip vv).map (fun x => (finder.find_page x.1).getD x.2)
    rw [hV]

/-- Witness for `find_pages_missing`: the counterexample's input, showing the
returned flag and both updated vectors. -/
theorem find_pages_missing_witness :
    (find_pages ⟨[0, 4096], []⟩ [11, 22] [] ⟨0, [(0, 7)]⟩).1 = false ∧
    (find_pages ⟨[0, 4096], []⟩ [11, 22] [] ⟨0, [(0, 7)]⟩).2.1
      = ([0, 4096].zip [11, 22]).map
          (fun x => ((PhysPageFinder.find_page ⟨0, [(0, 7)]⟩ x.1).getD x.2)) ∧
    (find_pages ⟨[0, 4096], []⟩ [11, 22] [] ⟨0, [(0, 7)]⟩).2.2
      = (([] : List Nat).zip ([] : List Nat)).map
          (fun x => ((PhysPageFinder.find_page ⟨0, [(0, 7)]⟩ x.1).getD x.2)) :=
  find_pages_missing ⟨[0, 4096], []⟩ [11, 22] [] ⟨0, [(0, 7)]⟩
    (by decide) (by decide) (Or.inl ⟨4096, by decide, by decide⟩)


/-! ## Hammer pattern -/

theorem count_true_expand (fill : Nat → Nat) :
    ∀ (desc : List Char) (k : Nat),
      (expand_desc fill desc k).count true = desc.count 'a' := by
  intro desc
  induction desc with
  | nil => intro k; rfl
  | cons c rest ih =>
    intro k
    by_cases hca : c = 'a'
    · subst hca
      simp [expand_desc, List.count_cons, ih]
    · by_cases hcv : c = 'v'
      · subst hcv
        simp [expand_desc, List.count_cons, ih]
      · simp [expand_desc, hca, hcv, List.count_append, List.count_replicate,
          List.count_cons, ih]

theorem count_true_pattern_body (desc : List Char) (fills : Nat → Nat → Nat) :
    ∀ n : Nat, (pattern_body desc fills n).count true = n * desc.count 'a' := by
  intro n
  induction n with
  | zero => simp [pattern_body]
  | succ n ih =>
    rw [pattern_body, List.range_succ]
    simp only [List.map_append, List.map_cons, List.map_nil]
    rw [List.flatten_append]
    rw [show (pattern_body desc fills n) = (List.flatten
      ((List.range n).map (fun per => expand_desc (fills per) desc 0))) from rfl] at ih
    simp [List.count_append, count_true_expand, Nat.succ_mul, ih]

theorem expand_desc_getLast (fill : Nat → Nat) :
    ∀ (desc : List Char) (k : Nat), desc.getLast? = some 'a' →
      (expand_desc fill desc k).getLast? = some true := by
  intro desc
  induction desc with
  | nil => intro k h; simp at h
  | cons c rest ih =>
    intro k h
    cases rest with
    | nil =>
      have hc : c = 'a' := by simpa using h
      subst hc
      rfl
    | cons d rest2 =>
      have hrest : (d :: rest2).getLast? = some 'a' := by
        rwa [List.getLast?_cons_cons] at h
      by_cases hca : c = 'a'
      · subst hca
        show (true :: expand_desc fill (d :: rest2) k).getLast? = some true
        rw [show (true :: expand_desc fill (d :: rest2) k)
            = [true] ++ expand_desc fill (d :: rest2) k from rfl,
          List.getLast?_append, ih k hrest]
        rfl
      · by_cases hcv : c = 'v'
        · subst hcv
          show (false :: expand_desc fill (d :: rest2) k).getLast? = some true
          rw [show (false :: expand_desc fill (d :: rest2) k)
              = [false] ++ expand_desc fill (d :: rest2) k from rfl,
            List.getLast?_append, ih k hrest]
          rfl
        · have hx : expand_desc fill (c :: d :: rest2) k
              = List.replicate (fill k) false ++ expand_desc fill (d :: rest2) (k + 1) := by
            simp only [expand_desc, if_neg hca, if_neg hcv]
          rw [hx, List.getLast?_append, ih (k + 1) hrest]
          rfl

theorem pattern_body_getLast (desc : List Char) (fills : Nat → Nat → Nat)
    (m : Nat) (hlast : desc.getLast? = some 'a') :
    (pattern_body desc fills (m + 1)).getLast? = some true := by
  rw [pattern_body, List.range_succ]
  simp only [List.map_append, List.map_cons, List.map_nil]
  rw [List.flatten_append, List.getLast?_append]
  simp only [List.flatten_cons, List.flatten_nil, List.append_nil]
  rw [expand_desc_getLast (fills m) desc 0 hlast]
  rfl

theorem create_pattern_count (desc : List Char) (fills : Nat → Nat → Nat)
    (r : Nat) :
    (create_pattern desc fills r).count true
      = ((r + desc.count 'a' - 1) / desc.count 'a') * desc.count 'a' := by
  show (if (pattern_body desc fills ((r + desc.count 'a' - 1) / desc.count 'a')).getLast?
        = some true
      then pattern_body desc fills ((r + desc.count 'a' - 1) / desc.count 'a') ++ [false]
      else pattern_body desc fills ((r + desc.count 'a' - 1) / desc.count 'a')).count true
    = _
  by_cases hb : (pattern_body desc fills
      ((r + desc.count 'a' - 1) / desc.count 'a')).getLast? = some true
  · rw [if_pos hb, List.count_append, count_true_pattern_body]
    simp
  · rw [if_neg hb, count_true_pattern_body]

/-- C7 counterexample: with description `"a"` and requested aggressor count 0
the constructed sequence is empty (the spec's own boundary case: zero periods
and an empty aggressor list), so although the description ends in `a` there
is no final victim bit. -/
theorem create_pattern_counterexample :
    (['a'].getLast? = some 'a') ∧
    (create_pattern ['a'] (fun _ _ => 0) 0).getLast? ≠ some false := by
  decide

/-- C7 (amended, modelled from the spec): after construction the number of
aggressor (true) bits is at least the requested count and is an exact
multiple of the number of `a` tokens in one period; and when the description
ends in `a` and the requested count is at least 1, the final bit is the
appended trailing victim (false). -/
theorem hammer_pattern_invariant (desc : List Char) (fills : Nat → Nat → Nat)
    (aggressor_rows : Nat) (hA : 0 < desc.count 'a') :
    aggressor_rows ≤ (create_pattern desc fills aggressor_rows).count true ∧
    (create_pattern desc fills aggressor_rows).count true % desc.count 'a' = 0 ∧
    (desc.getLast? = some 'a' → 1 ≤ aggressor_rows →
      (create_pattern desc fills aggressor_rows).getLast? = some false) := by
  have hcnt := create_pattern_count desc fills aggressor_rows
  have hdm := Nat.div_add_mod (aggressor_rows + desc.count 'a' - 1) (desc.count 'a')
  have hlt : (aggressor_rows + desc.count 'a' - 1) % desc.count 'a' < desc.count 'a' :=
    Nat.mod_lt _ hA
  have hcomm : desc.count 'a' * ((aggressor_rows + desc.count 'a' - 1) / desc.count 'a')
      = ((aggressor_rows + desc.count 'a' - 1) / desc.count 'a') * desc.count 'a' :=
    Nat.mul_comm _ _
  refine ⟨by rw [hcnt]; omega, by rw [hcnt]; exact Nat.mul_mod_left _ _, ?_⟩
  intro hlast hr
  have hmul : 1 * desc.count 'a' ≤ aggressor_rows + desc.count 'a' - 1 := by omega
  have hq1 : 1 ≤ (aggressor_rows + desc.count 'a' - 1) / desc.count 'a' :=
    (Nat.le_div_iff_mul_le hA).mpr hmul
  obtain ⟨m, hm⟩ : ∃ m, (aggressor_rows + desc.count 'a' - 1) / desc.count 'a'
      = m + 1 :=
    ⟨(aggressor_rows + desc.count 'a' - 1) / desc.count 'a' - 1, by omega⟩
  have hbodylast := pattern_body_getLast desc fills m hlast
  show (if (pattern_body desc fills ((aggressor_rows + desc.count 'a' - 1)
        / desc.count 'a')).getLast? = some true
      then pattern_body desc fills ((aggressor_rows + desc.count 'a' - 1)
        / desc.count 'a') ++ [false]
      else pattern_body desc fills ((aggressor_rows + desc.count 'a' - 1)
        / desc.count 'a')).getLast? = some false
  rw [hm, if_pos hbodylast, List.getLast?_concat]

/-- Witness for `hammer_pattern_invariant`: scenario 2 of the spec, pattern
`"va"` with 4 requested aggressors. -/
theorem hammer_pattern_invariant_witness :
    (4 : Nat) ≤ (create_pattern ['v', 'a'] (fun _ _ => 0) 4).count true ∧
    (create_pattern ['v', 'a'] (fun _ _ => 0) 4).count true
      % (['v', 'a'].count 'a') = 0 ∧
    (['v', 'a'].getLast? = some 'a' → 1 ≤ 4 →
      (create_pattern ['v', 'a'] (fun _ _ => 0) 4).getLast? = some false) :=
  hammer_pattern_invariant ['v', 'a'] (fun _ _ => 0) 4 (by decide)


/-! ## Non-contiguous flip finder -/

theorem lower_bound_window (key hi : Nat) :
    ∀ l : List Nat, l.Pairwise (fun a b => a ≤ b) →
      ((match lower_bound l key with
        | none => false
        | some m => decide (m ≤ hi)) = true
        ↔ ∃ m ∈ l, key ≤ m ∧ m ≤ hi) := by
  intro l
  induction l with
  | nil => simp [lower_bound]
  | cons c l ih =>
    intro hpw
    obtain ⟨hhead, htail⟩ := List.pairwise_cons.mp hpw
    by_cases hc : key ≤ c
    · have hfind : List.find? (fun m => decide (key ≤ m)) (c :: l) = some c := by
        rw [List.find?_cons]
        simp [hc]
      simp only [lower_bound, hfind]
      constructor
      · intro h
        exact ⟨c, List.mem_cons_self c l, hc, by simpa using h⟩
      · rintro ⟨m, hm, _, hmh⟩
        rcases List.mem_cons.mp hm with rfl | hm2
        · simpa using hmh
        · simpa using Nat.le_trans (hhead m hm2) hmh
    · have hfind : List.find? (fun m => decide (key ≤ m)) (c :: l)
          = List.find? (fun m => decide (key ≤ m)) l := by
        rw [List.find?_cons]
        simp [hc]
      rw [lower_bound, hfind, ← lower_bound]
      rw [ih htail]
      constructor
      · rintro ⟨m, hm, h1, h2⟩
        exact ⟨m, List.mem_cons_of_mem c hm, h1, h2⟩
      · rintro ⟨m, hm, h1, h2⟩
        rcases List.mem_cons.mp hm with rfl | hm2
        · exact absurd h1 hc
        · exact ⟨m, hm2, h1, h2⟩

theorem is_any_row_missing_iff (missing : List Nat)
    (row_padding first_row last_row : Nat)
    (hsort : missing.Pairwise (fun a b => a ≤ b))
    (hpad : row_padding ≤ first_row) (hfirst : first_row < U64)
    (hlast : last_row + row_padding < U64) :
    (is_any_row_missing missing row_padding first_row last_row = true ↔
      ∃ m ∈ missing, first_row - row_padding ≤ m ∧ m ≤ last_row + row_padding) := by
  have hU : U64 = 18446744073709551616 := by norm_num [U64]
  have hkey : u64_sub first_row row_padding = first_row - row_padding := by
    rw [u64_sub, hU]
    rw [hU] at hfirst
    omega
  have hhi : (last_row + row_padding) % U64 = last_row + row_padding :=
    Nat.mod_eq_of_lt hlast
  unfold is_any_row_missing
  rw [hkey, hhi]
  exact lower_bound_window (first_row - row_padding) (last_row + row_padding)
    missing hsort

/-- C8 counterexample: `missing = {0}`, `row_padding = 10`, window
`[5, 6]`.  Mathematically the missing row 0 lies in the padded interval
`[5 - 10, 6 + 10] = [0, 16]`, so the claim requires the window to be
skipped; but `first_victim - row_padding` is computed in `uint64_t` and
wraps to `2^64 - 5`, the `lower_bound` check finds nothing, and the window
is hammered. -/
theorem nc_hammer_counterexample :
    ((0 : Nat) ∈ [0] ∧ (5 : Nat) - 10 ≤ 0 ∧ (0 : Nat) ≤ 6 + 10) ∧
    (nc_hammer [0] 10 5 6 true [] false).1 = HammerOutcome.hammered := by
  decide

/-- C8 (amended): provided `first_victim ≥ row_padding` and
`last_victim + row_padding < 2^64` (so the unsigned arithmetic does not
wrap), a window whose padded interval contains a missing row is skipped:
`hammer` returns continue (`true`) without emitting events; and whenever
hammering is actually performed no row of the padded interval is missing. -/
theorem nc_hammer_skip (missing : List Nat)
    (row_padding first_victim last_victim : Nat)
    (pages_found : Bool) (flips : List FlipEvent) (do_exit : Bool)
    (hsort : missing.Pairwise (fun a b => a ≤ b))
    (hpad : row_padding ≤ first_victim) (hfirst : first_victim < U64)
    (hlast : last_victim + row_padding < U64) :
    ((∃ m ∈ missing,
        first_victim - row_padding ≤ m ∧ m ≤ last_victim + row_padding) →
      nc_hammer missing row_padding first_victim last_victim pages_found
          flips do_exit
        = (HammerOutcome.skipped, true, [])) ∧
    ((nc_hammer missing row_padding first_victim last_victim pages_found
        flips do_exit).1 = HammerOutcome.hammered →
      ∀ m ∈ missing,
        ¬(first_victim - row_padding ≤ m ∧ m ≤ last_victim + row_padding)) := by
  have hiff := is_any_row_missing_iff missing row_padding first_victim
    last_victim hsort hpad hfirst hlast
  constructor
  · intro hex
    rw [nc_hammer, if_pos (hiff.mpr hex)]
  · intro hham m hm hcond
    rw [nc_hammer, if_pos (hiff.mpr ⟨m, hm, hcond⟩)] at hham
    exact HammerOutcome.noConfusion hham

/-- Witness for `nc_hammer_skip`: scenario 5 of the spec,
`row_padding = 10`, `missing = {100}`, window `[80, 95]`: hammering is
skipped because `100 ∈ [80 - 10, 95 + 10]`. -/
theorem nc_hammer_skip_witness :
    ((∃ m ∈ [100], (80 : Nat) - 10 ≤ m ∧ m ≤ 95 + 10) →
      nc_hammer [100] 10 80 95 true [] false
        = (HammerOutcome.skipped, true, [])) ∧
    ((nc_hammer [100] 10 80 95 true [] false).1 = HammerOutcome.hammered →
      ∀ m ∈ [100], ¬((80 : Nat) - 10 ≤ m ∧ m ≤ 95 + 10)) :=
  nc_hammer_skip [100] 10 80 95 true [] false (by simp) (by decide) (by decide)
    (by decide)

/-! ## Configuration verification -/

/-- C9 counterexample: with `test_min_rows = 1`, `row_padding = 0` and
`test_max_rows = 0`, the claim's condition `test_max_rows < test_min_rows +
2 * row_padding` holds, yet verification changes nothing and warns nothing:
the code treats `test_max_rows = 0` as "no restriction" and only raises
positive values. -/
theorem verify_test_max_rows_counterexample :
    (Config.test_max_rows ⟨1, 0, 0, 24, [], []⟩ < 1 + 0 * 2) ∧
    verify_test_max_rows ⟨1, 0, 0, 24, [], []⟩ = (⟨1, 0, 0, 24, [], []⟩, false) := by
  decide

/-- C9 (amended): for every configuration with
`0 < test_max_rows < test_min_rows + 2 * row_padding`, verification raises
`test_max_rows` to exactly that floor and logs a warning; every other
modelled field is unchanged by this normalization step. -/
theorem test_max_rows_normalized (c : Config) (h0 : 0 < c.test_max_rows)
    (h : c.test_max_rows < c.test_min_rows + c.row_padding * 2) :
    (verify_test_max_rows c).1.test_max_rows
      = c.test_min_rows + c.row_padding * 2 ∧
    (verify_test_max_rows c).2 = true ∧
    (verify_test_max_rows c).1.test_min_rows = c.test_min_rows ∧
    (verify_test_max_rows c).1.row_padding = c.row_padding ∧
    (verify_test_max_rows c).1.aggressor_rows = c.aggressor_rows ∧
    (verify_test_max_rows c).1.victim_init = c.victim_init ∧
    (verify_test_max_rows c).1.aggressor_init = c.aggressor_init := by
  rw [verify_test_max_rows]
  rw [if_pos ⟨h0, h⟩]
  exact ⟨rfl, rfl, rfl, rfl, rfl, rfl, rfl⟩

/-- Witness for `test_max_rows_normalized`: `test_min_rows = 50`,
`row_padding = 10`, `test_max_rows = 30` is raised to 70. -/
theorem test_max_rows_normalized_witness :
    (verify_test_max_rows ⟨50, 10, 30, 24, [], []⟩).1.test_max_rows
      = 50 + 10 * 2 ∧
    (verify_test_max_rows ⟨50, 10, 30, 24, [], []⟩).2 = true ∧
    (verify_test_max_rows ⟨50, 10, 30, 24, [], []⟩).1.test_min_rows = 50 ∧
    (verify_test_max_rows ⟨50, 10, 30, 24, [], []⟩).1.row_padding = 10 ∧
    (verify_test_max_rows ⟨50, 10, 30, 24, [], []⟩).1.aggressor_rows = 24 ∧
    (verify_test_max_rows ⟨50, 10, 30, 24, [], []⟩).1.victim_init = [] ∧
    (verify_test_max_rows ⟨50, 10, 30, 24, [], []⟩).1.aggressor_init = [] :=
  test_max_rows_normalized ⟨50, 10, 30, 24, [], []⟩ (by decide) (by decide)

theorem verify_test_max_rows_preserves_init (c : Config) :
    (verify_test_max_rows c).1.victim_init = c.victim_init ∧
    (verify_test_max_rows c).1.aggressor_init = c.aggressor_init := by
  rw [verify_test_max_rows]
  split
  · exact ⟨rfl, rfl⟩
  · exact ⟨rfl, rfl⟩

/-- C10: if `victim_init` is non-empty and `aggressor_init` is empty, then
after verification `aggressor_init` has the same length as `victim_init` and
each element is the bitwise complement of the corresponding victim word. -/
theorem aggressor_init_inverted (c : Config) (_hv : c.victim_init ≠ [])
    (ha : c.aggressor_init = []) :
    ((verify_values c).1.aggressor_init).length = c.victim_init.length ∧
    ∀ i : Nat,
      ((verify_values c).1.aggressor_init)[i]?
        = (c.victim_init[i]?).map u64_not := by
  obtain ⟨hvi, hai⟩ := verify_test_max_rows_preserves_init c
  have hstep : (verify_values c).1
      = verify_aggressor_init (verify_test_max_rows c).1 := rfl
  have hempty : (verify_test_max_rows c).1.aggressor_init.isEmpty = true := by
    rw [hai, ha]
    rfl
  have hagg : (verify_values c).1.aggressor_init
      = c.victim_init.map u64_not := by
    rw [hstep, verify_aggressor_init, if_pos hempty]
    simp [hvi]
  constructor
  · rw [hagg, List.length_map]
  · intro i
    rw [hagg, List.getElem?_map]

/-- Witness for `aggressor_init_inverted`: `victim_init = [0, 5]`, empty
`aggressor_init`. -/
theorem aggressor_init_inverted_witness :
    ((verify_values ⟨1, 1, 0, 24, [0, 5], []⟩).1.aggressor_init).length
      = ([0, 5] : List Nat).length ∧
    ∀ i : Nat,
      ((verify_values ⟨1, 1, 0, 24, [0, 5], []⟩).1.aggressor_init)[i]?
        = (([0, 5] : List Nat)[i]?).map u64_not :=
  aggressor_init_inverted ⟨1, 1, 0, 24, [0, 5], []⟩ (by decide) rfl

end Gluezilla
